import Mathlib

/-!
Shallow embedding of `src/mrb_require.c` (masahino/mruby-require), a module
resolution and loading subsystem for mruby.  The embedding targets the Linux
build (`ENV_SEP = ':'`, `SO_EXT = ".so"`).

Filesystem and VM effects are modelled by explicit oracles:
* `opens p` models `fopen(p, "r") != NULL`;
* `rp` models `realpath` (canonicalisation);
* compile / deserialize / execution outcomes of external mruby services are
  oracle fields of a `World` structure.

Raising an mruby exception (`mrb_raise*`) performs a `longjmp` that abandons
the rest of the raising C function and all callers up to the VM boundary; the
embedding models this with an explicit `LoadResult.raise` that is propagated
and short-circuits the remaining statements, exactly as the `longjmp` does.
-/

namespace MrbRequire

/-- Platform path-list separator (`ENV_SEP` for `__linux__`). -/
def ENV_SEP : Char := ':'

/-- Platform shared-object suffix (`SO_EXT` for `__linux__`). -/
def SO_EXT : String := ".so"

/-- Model of C `strrchr(s, c)`: the suffix of `s` that starts at the last
occurrence of `c`, or `none` when `c` does not occur. -/
def strrchr : List Char → Char → Option (List Char)
  | [], _ => none
  | x :: xs, c =>
    match strrchr xs c with
    | some r => some r
    | none => if x = c then some (x :: xs) else none

/-- `*fname == c` for a C string: the first character test. -/
def startsWithChar (c : Char) (s : String) : Bool :=
  match s.toList with
  | [] => false
  | x :: _ => x = c

/-- Outcome of `find_file` (mrb_require.c:146-197): a found path, the bare
`mrb_nil_value()` return (absolute path that does not open, line 173), or an
`E_LOAD_ERROR` raise (line 195). -/
inductive FindResult where
  | found (path : String)
  | nilResult
  | loadError (msg : String)
deriving DecidableEq

/-- `find_file_check` (mrb_require.c:115-144): build
`path ++ "/" ++ fname ++ ext`, canonicalise it with `realpath`, and return the
canonical path when it opens for read. -/
def find_file_check (opens : String → Bool) (rp : String → String)
    (path fname : String) (ext : Option String) : Option String :=
  let filepath := path ++ "/" ++ fname ++ (match ext with | none => "" | some e => e)
  let fpath := rp filepath
  if opens fpath then some fpath else none

/-- The inner `for (j ...)` loop of `find_file` (mrb_require.c:187-192):
try each extension candidate in order within one directory. -/
def search_exts (opens : String → Bool) (rp : String → String)
    (dir fname : String) : List (Option String) → Option String
  | [] => none
  | e :: es =>
    match find_file_check opens rp dir fname e with
    | some fp => some fp
    | none => search_exts opens rp dir fname es

/-- The outer `for (i ...)` loop of `find_file` (mrb_require.c:186-193):
walk the load path directories in order. -/
def search_dirs (opens : String → Bool) (rp : String → String)
    (fname : String) (exts : List (Option String)) : List String → Option String
  | [] => none
  | d :: ds =>
    match search_exts opens rp d fname exts with
    | some fp => some fp
    | none => search_dirs opens rp fname exts ds

/-- The extension candidate computation of `find_file` (mrb_require.c:159-167):
`strrchr(fname, '.') == NULL` yields the triple `.rb`, `.mrb`, `SO_EXT`;
otherwise the single `nil` (use-as-is) candidate. -/
def extension_candidates (fname : String) : List (Option String) :=
  match strrchr fname.toList '.' with
  | none => [some ".rb", some ".mrb", some SO_EXT]
  | some _ => [none]

/-- `find_file` (mrb_require.c:146-197).  `loadPath` is the array read from
`$:`.  A name starting with `'/'` is checked directly with `fopen` and
returned unchanged, or the function returns nil (not an error raise).  A name
starting with `'.'` replaces the load path by `["."]`.  Otherwise the nested
loops over directories and candidates run, and exhaustion raises
`E_LOAD_ERROR`. -/
def find_file (opens : String → Bool) (rp : String → String)
    (loadPath : List String) (fname : String) : FindResult :=
  let exts := extension_candidates fname
  if startsWithChar '/' fname then
    if opens fname then .found fname else .nilResult
  else
    let lp := if startsWithChar '.' fname then ["."] else loadPath
    match search_dirs opens rp fname exts lp with
    | some fp => .found fp
    | none => .loadError ("cannot load such file -- " ++ fname)

/-- The three loaders reachable from `load_file` (mrb_require.c:347-367). -/
inductive LoadKind where
  | mrbFile
  | rbFile
  | soFile
deriving DecidableEq

/-- Outcome of the extension dispatch in `load_file`: run one loader, or raise
for a path without `'.'` (line 352) or with an unknown extension (line 363). -/
inductive Dispatch where
  | run (k : LoadKind)
  | errInvalidPath
  | errInvalidExt
deriving DecidableEq

/-- The extension dispatch of `load_file` (mrb_require.c:347-367):
`ext = strrchr(path, '.')`; `NULL` raises "invalid filepath"; then `ext` is
compared (dot included) against `".mrb"`, `".rb"`, `SO_EXT` in that order. -/
def load_file_dispatch (path : String) : Dispatch :=
  match strrchr path.toList '.' with
  | none => .errInvalidPath
  | some ext =>
    if ext = ".mrb".toList then .run .mrbFile
    else if ext = ".rb".toList then .run .rbFile
    else if ext = SO_EXT.toList then .run .soFile
    else .errInvalidExt

/-! ## Bytecode tail patching (`replace_stop_with_return`)

Instruction encoding from mruby's `opcode.h` of the era this gem targets
(an external collaborator header, not part of this repository): 32-bit codes,
opcode in the low 7 bits, operand A in bits 23-31, operand B in bits 14-22. -/

/-- Opcode `OP_LOADNIL` (mruby `opcode.h`). -/
def OP_LOADNIL : Nat := 5

/-- Opcode `OP_RETURN` (mruby `opcode.h`). -/
def OP_RETURN : Nat := 41

/-- Opcode `OP_STOP` (mruby `opcode.h`). -/
def OP_STOP : Nat := 74

/-- Return kind `OP_R_NORMAL` (mruby `opcode.h`). -/
def OP_R_NORMAL : Nat := 0

/-- `MKOPCODE` (mruby `opcode.h`): low 7 bits. -/
def MKOPCODE (op : Nat) : Nat := op % 128

/-- `MKARG_A` (mruby `opcode.h`): 9-bit A operand shifted to bit 23. -/
def MKARG_A (a : Nat) : Nat := (a % 512) * 2 ^ 23

/-- `MKARG_B` (mruby `opcode.h`): 9-bit B operand shifted to bit 14. -/
def MKARG_B (b : Nat) : Nat := (b % 512) * 2 ^ 14

/-- `MKOP_A` (mruby `opcode.h`). -/
def MKOP_A (op a : Nat) : Nat := MKOPCODE op ||| MKARG_A a

/-- `MKOP_AB` (mruby `opcode.h`). -/
def MKOP_AB (op a b : Nat) : Nat := MKOP_A op a ||| MKARG_B b

/-- The part of `mrb_irep` this subsystem touches: the instruction sequence
(`iseq`, with `ilen = iseq.length`). -/
structure Irep where
  iseq : List Nat
deriving DecidableEq

/-- `replace_stop_with_return` (mrb_require.c:199-208): when the last
instruction is `MKOP_A(OP_STOP, 0)`, grow `iseq` by one slot, overwrite the
terminator with `MKOP_A(OP_LOADNIL, 0)` and append
`MKOP_AB(OP_RETURN, 0, OP_R_NORMAL)`; otherwise leave the unit alone. -/
def replace_stop_with_return (irep : Irep) : Irep :=
  if irep.iseq.getLast? = some (MKOP_A OP_STOP 0) then
    { iseq := irep.iseq.dropLast ++ [MKOP_A OP_LOADNIL 0, MKOP_AB OP_RETURN 0 OP_R_NORMAL] }
  else irep

/-! ## The load pipeline

External services (filesystem, compiler, deserializer, interpreter, dynamic
loader) are oracles bundled in `World`.  `LoadResult.raise` models an mruby
exception unwinding out of the function by `longjmp`. -/

/-- Oracles for the external collaborators of the pipeline. -/
structure World where
  /-- `fopen(p, "r")` succeeds. -/
  opens : String → Bool
  /-- `realpath` canonicalisation. -/
  rp : String → String
  /-- `getpid()`. -/
  pid : Nat
  /-- compiling the source file in the throwaway sub-instance of
  `mrb_compile` succeeds (so the dumped temp file holds valid bytecode). -/
  compileOk : String → Bool
  /-- `mrb_read_irep_file` on this file returns `n >= 0`. -/
  validBytecode : String → Bool
  /-- executing the loaded top-level unit attributed to this path completes
  without raising. -/
  execOk : String → Bool
  /-- `dlopen` succeeds. -/
  dlopenOk : String → Bool
  /-- `dlsym` of the fixed init symbol succeeds. -/
  dlsymOk : String → Bool

/-- Observable events of a load. -/
inductive Ev where
  | tmpCreated (t : String)
  | executed (p : String)
  | nativeInit (p : String)
  | tmpRemoved (t : String)
deriving DecidableEq

/-- Exceptions raised by this subsystem or propagated through it. -/
inductive RubyExc where
  | loadError (msg : String)
  | scriptError
  | runtimeError
deriving DecidableEq

/-- Normal return vs. exception unwind of a loader call. -/
inductive LoadResult where
  | ok
  | raise (e : RubyExc)
deriving DecidableEq

/-- `load_mrb_file_with_filepath` (mrb_require.c:210-252).  `fileOpens` is the
`fopen` probe of lines 216-222 (raise `E_LOAD_ERROR` when it fails;
the C format string is "can t load %s" with an apostrophe).  `contentValid`
is whether `mrb_read_irep_file` returns `n >= 0`.  On `n >= 0` the unit is
patched, wrapped and executed; an exception from execution unwinds by
`longjmp`.  On `n < 0` `mrb_read_irep_file` has reported the failure only
through its negative return value without setting `mrb->exc` on this
instance, so the `mrb->exc` branch of line 248 is not taken and the function
returns normally having executed nothing. -/
def load_mrb_file_with_filepath (w : World) (fileOpens contentValid : Bool)
    (fpath origpath : String) : LoadResult × List Ev :=
  if !fileOpens then (.raise (.loadError ("cant load " ++ fpath)), [])
  else if contentValid then
    if w.execOk origpath then (.ok, [.executed origpath])
    else (.raise .scriptError, [.executed origpath])
  else
    (.ok, [])

/-- `load_mrb_file` (mrb_require.c:254-258). -/
def load_mrb_file (w : World) (fpath : String) : LoadResult × List Ev :=
  load_mrb_file_with_filepath w (w.opens fpath) (w.validBytecode fpath) fpath fpath

/-- The temp file name built in `load_rb_file` (mrb_require.c:334-337):
`"/tmp/mruby." ++ pid`. -/
def tmpfilepath (w : World) : String := "/tmp/mruby." ++ toString w.pid

/-- `mrb_compile` (mrb_require.c:260-290): compile `srcpath` in a fresh
throwaway instance, dump the newly produced units to the temp file, close the
sub-instance, and return `mrb_nil_value()`.  It never raises on the calling
instance and never inspects the sub-instance exception slot, so a compile
diagnostic dies with `mrb_close`.  Caller-visible outcome: whether the temp
file now holds a valid bytecode dump. -/
def mrb_compile (w : World) (srcpath : String) : LoadResult × Bool :=
  (.ok, w.compileOk srcpath)

/-- `load_rb_file` (mrb_require.c:314-345): probe the source file, build the
temp path, compile into the temp file, load the temp file as bytecode with
the source path as display path, then `remove` the temp file.  The `remove`
runs only when `load_mrb_file_with_filepath` returns normally; an exception
from it unwinds past line 344 by `longjmp`.  The temp file always opens after
`mrb_compile` (created by `fopen(tmpfilepath, "w")`). -/
def load_rb_file (w : World) (fpath : String) : LoadResult × List Ev :=
  if !(w.opens fpath) then (.raise (.loadError ("cant load " ++ fpath)), [])
  else
    let tmp := tmpfilepath w
    let valid := (mrb_compile w fpath).2
    match load_mrb_file_with_filepath w true valid tmp fpath with
    | (.ok, tr) => (.ok, Ev.tmpCreated tmp :: tr ++ [Ev.tmpRemoved tmp])
    | (.raise e, tr) => (.raise e, Ev.tmpCreated tmp :: tr)

/-- `load_so_file` (mrb_require.c:292-312): `dlopen`, `dlsym` the fixed init
symbol, invoke it; each probe failure raises `E_RUNTIME_ERROR` with the
dynamic-loader diagnostic. -/
def load_so_file (w : World) (fpath : String) : LoadResult × List Ev :=
  if !(w.dlopenOk fpath) then (.raise .runtimeError, [])
  else if !(w.dlsymOk fpath) then (.raise .runtimeError, [])
  else (.ok, [.nativeInit fpath])

/-- `load_file` (mrb_require.c:347-367): dispatch on the extension and run
exactly one loader, or raise without running any.  (The C messages quote the
path with apostrophes: "Filepath ... is invalid." / "... is invalid
extension.") -/
def load_file (w : World) (fpath : String) : LoadResult × List Ev :=
  match load_file_dispatch fpath with
  | .errInvalidPath => (.raise (.loadError ("Filepath " ++ fpath ++ " is invalid.")), [])
  | .errInvalidExt => (.raise (.loadError ("Filepath " ++ fpath ++ " is invalid extension.")), [])
  | .run .mrbFile => load_mrb_file w fpath
  | .run .rbFile => load_rb_file w fpath
  | .run .soFile => load_so_file w fpath

/-- The global state this subsystem keeps in mruby global variables:
`$:` (load path), `$"` (loaded files), `$"_` (loading files; `none` models
the variable never having been set, which reads as `nil`). -/
structure St where
  loadPath : List String
  loadedFiles : List String
  loadingFiles : Option (List String)
deriving DecidableEq

/-- `loaded_files_check` (mrb_require.c:392-414): false when `filepath`
string-equals an entry of `$"`; otherwise true when `$"_` is `nil`, else
false exactly when `filepath` string-equals an entry of `$"_`. -/
def loaded_files_check (st : St) (p : String) : Bool :=
  if st.loadedFiles.contains p then false
  else
    match st.loadingFiles with
    | none => true
    | some l => !(l.contains p)

/-- `loading_files_add` (mrb_require.c:416-428): create `$"_` as an empty
array when it is `nil`, push `filepath`, store back. -/
def loading_files_add (st : St) (p : String) : St :=
  { st with loadingFiles := some ((st.loadingFiles.getD []) ++ [p]) }

/-- `loaded_files_add` (mrb_require.c:430-439): push `filepath` onto `$"`. -/
def loaded_files_add (st : St) (p : String) : St :=
  { st with loadedFiles := st.loadedFiles ++ [p] }

/-- Result of `mrb_require`/`mrb_load`: a returned boolean, an exception
unwind, or `ub` for the continuation after `find_file` returned
`mrb_nil_value()` (the C code would then apply string primitives to `nil`). -/
inductive ReqResult where
  | ret (b : Bool)
  | raise (e : RubyExc)
  | ub
deriving DecidableEq

/-- `mrb_require` (mrb_require.c:441-453): resolve; when
`loaded_files_check` passes, mark loading, dispatch, mark loaded, return
true; otherwise return false.  An exception from `load_file` unwinds before
`loaded_files_add` runs. -/
def mrb_require (w : World) (st : St) (fname : String) : ReqResult × St × List Ev :=
  match find_file w.opens w.rp st.loadPath fname with
  | .loadError m => (.raise (.loadError m), st, [])
  | .nilResult => (.ub, st, [])
  | .found p =>
    if loaded_files_check st p then
      let st1 := loading_files_add st p
      match load_file w p with
      | (.ok, tr) => (.ret true, loaded_files_add st1 p, tr)
      | (.raise e, tr) => (.raise e, st1, tr)
    else (.ret false, st, [])

/-- `mrb_load` (mrb_require.c:369-375): resolve, dispatch unconditionally,
return true. -/
def mrb_load (w : World) (st : St) (fname : String) : ReqResult × List Ev :=
  match find_file w.opens w.rp st.loadPath fname with
  | .loadError m => (.raise (.loadError m), [])
  | .nilResult => (.ub, [])
  | .found p =>
    match load_file w p with
    | (.ok, tr) => (.ret true, tr)
    | (.raise e, tr) => (.raise e, tr)

/-! ## Initialization -/

/-- Accumulating splitter for `envSegs`: `cur` is the segment collected so
far.  On a separator the segment is emitted and, exactly as the C loop index
`i += len; i++` does, splitting continues only when characters remain. -/
def envSegsAux (cur : List Char) : List Char → List (List Char)
  | [] => [cur]
  | c :: cs =>
    if c = ENV_SEP then
      cur :: (match cs with | [] => [] | _ :: _ => envSegsAux [] cs)
    else
      envSegsAux (cur ++ [c]) cs

/-- The splitting loop of `envpath_to_mrb_ary` (mrb_require.c:98-109):
segments between `ENV_SEP` occurrences; an empty value yields no segments
(the loop body never runs), and a trailing separator yields no trailing
empty segment (the loop index steps past the end). -/
def envSegs : List Char → List (List Char)
  | [] => []
  | c :: cs => envSegsAux [] (c :: cs)

/-- `envpath_to_mrb_ary` (mrb_require.c:88-112): empty array when the
environment variable is unset, else the `ENV_SEP` split of its value. -/
def envpath_to_mrb_ary (env : Option String) : List String :=
  match env with
  | none => []
  | some s => (envSegs s.toList).map (fun cs => ⟨cs⟩)

/-- `mrb_mruby_require_gem_init` (mrb_require.c:477-488) together with
`mrb_init_load_path` (mrb_require.c:471-475): define the two methods, set
`$:` from the `MRBLIB` environment variable, set `$"` to a fresh empty
array.  The loading registry `$"_` is never assigned here and stays unset. -/
def mrb_mruby_require_gem_init (mrblibEnv : Option String) : St :=
  { loadPath := envpath_to_mrb_ary mrblibEnv
    loadedFiles := []
    loadingFiles := none }

/-! ## Helper lemmas -/

theorem strrchr_eq_none_iff (cs : List Char) (c : Char) :
    strrchr cs c = none ↔ c ∉ cs := by
  induction cs with
  | nil => simp [strrchr]
  | cons x xs ih =>
    simp only [strrchr]
    cases h : strrchr xs c with
    | some r => simp [← ih, h]
    | none =>
      have hx : c ∉ xs := ih.mp h
      by_cases hxc : x = c
      · simp [hxc]
      · simp [hxc, hx, Ne.symm hxc]

theorem strrchr_eq_some_iff (cs r : List Char) (c : Char) :
    strrchr cs c = some r ↔
      ∃ pre tl, cs = pre ++ c :: tl ∧ r = c :: tl ∧ c ∉ tl := by
  induction cs generalizing r with
  | nil => simp [strrchr]
  | cons x xs ih =>
    simp only [strrchr]
    cases h : strrchr xs c with
    | some s =>
      obtain ⟨pre, tl, hxs, hs, htl⟩ := (ih s).mp h
      constructor
      · intro hr
        cases hr
        exact ⟨x :: pre, tl, by simp [hxs], hs, htl⟩
      · rintro ⟨pre2, tl2, hcs, hr2, htl2⟩
        cases pre2 with
        | nil =>
          simp only [List.nil_append, List.cons.injEq] at hcs
          exfalso
          apply htl2
          rw [← hcs.2, hxs]
          simp
        | cons y pre2 =>
          simp only [List.cons_append, List.cons.injEq] at hcs
          have := (ih (c :: tl2)).mpr ⟨pre2, tl2, hcs.2, rfl, htl2⟩
          rw [this] at h
          cases h
          simp [hr2]
    | none =>
      have hx : c ∉ xs := (strrchr_eq_none_iff xs c).mp h
      by_cases hxc : x = c
      · subst hxc
        simp only [if_pos rfl]
        constructor
        · intro hr
          cases hr
          exact ⟨[], xs, by simp, rfl, hx⟩
        · rintro ⟨pre2, tl2, hcs, hr2, htl2⟩
          cases pre2 with
          | nil =>
            simp only [List.nil_append, List.cons.injEq] at hcs
            simp [hr2, hcs.2]
          | cons y pre2 =>
            simp only [List.cons_append, List.cons.injEq] at hcs
            exfalso
            apply hx
            rw [hcs.2]
            simp
      · simp only [if_neg hxc]
        constructor
        · intro hr
          cases hr
        · rintro ⟨pre2, tl2, hcs, hr2, htl2⟩
          exfalso
          cases pre2 with
          | nil =>
            simp only [List.nil_append, List.cons.injEq] at hcs
            exact hxc hcs.1
          | cons y pre2 =>
            simp only [List.cons_append, List.cons.injEq] at hcs
            apply hx
            rw [hcs.2]
            simp

/-! ## Claim theorems -/

/-- C8: when patching a deserialized top-level unit, if and only if the final
instruction is `MKOP_A(OP_STOP, 0)`, the patch grows the instruction buffer by
exactly one slot and replaces the terminator with the two-instruction tail
`MKOP_A(OP_LOADNIL, 0); MKOP_AB(OP_RETURN, 0, OP_R_NORMAL)`; a unit ending in
any other instruction is left unchanged. -/
theorem c8_replace_stop_with_return (irep : Irep) (hne : irep.iseq ≠ []) :
    (irep.iseq.getLast? = some (MKOP_A OP_STOP 0) →
      (replace_stop_with_return irep).iseq =
        irep.iseq.dropLast ++ [MKOP_A OP_LOADNIL 0, MKOP_AB OP_RETURN 0 OP_R_NORMAL] ∧
      (replace_stop_with_return irep).iseq.length = irep.iseq.length + 1) ∧
    (irep.iseq.getLast? ≠ some (MKOP_A OP_STOP 0) →
      replace_stop_with_return irep = irep) := by
  constructor
  · intro hlast
    have hpos : 0 < irep.iseq.length := List.length_pos.mpr hne
    have hrw : (replace_stop_with_return irep).iseq =
        irep.iseq.dropLast ++ [MKOP_A OP_LOADNIL 0, MKOP_AB OP_RETURN 0 OP_R_NORMAL] := by
      simp [replace_stop_with_return, hlast]
    refine ⟨hrw, ?_⟩
    rw [hrw]
    simp [List.length_dropLast]
    omega
  · intro hlast
    simp [replace_stop_with_return, hlast]

theorem c8_replace_stop_with_return_witness :
    (replace_stop_with_return ⟨[MKOP_A OP_STOP 0]⟩).iseq =
      [MKOP_A OP_LOADNIL 0, MKOP_AB OP_RETURN 0 OP_R_NORMAL] := by
  have h := (c8_replace_stop_with_return ⟨[MKOP_A OP_STOP 0]⟩ (by decide)).1 (by decide)
  simpa using h.1

/-- C5, counterexample: an absolute module name whose file does not open makes
`find_file` return the bare nil value (mrb_require.c:173), not an
`E_LOAD_ERROR` raise, falsifying the claim that the failure raises
`LoadError` ("cannot load such file"). -/
theorem c5_counterexample :
    find_file (fun _ => false) id [] "/x" = FindResult.nilResult ∧
    FindResult.nilResult ≠ FindResult.loadError "cannot load such file -- /x" := by
  constructor
  · rfl
  · decide

/-- C5 as amended: a module name starting with the path separator is treated
as absolute — the file is probed directly with `fopen`, the name is returned
unchanged on success, and on failure `find_file` returns nil (no `LoadError`
is raised); the search path and canonicalisation are ignored entirely. -/
theorem c5_absolute_path (opens : String → Bool) (rp rp2 : String → String)
    (lp lp2 : List String) (fname : String)
    (h : startsWithChar '/' fname = true) :
    find_file opens rp lp fname =
      (if opens fname then FindResult.found fname else FindResult.nilResult) ∧
    find_file opens rp lp fname = find_file opens rp2 lp2 fname := by
  constructor
  · simp [find_file, h]
  · simp [find_file, h]

theorem c5_absolute_path_witness :
    find_file (fun s => s == "/x") id ["lib"] "/x" = FindResult.found "/x" := by
  have h := (c5_absolute_path (fun s => s == "/x") id id ["lib"] [] "/x" rfl).1
  rw [h]
  rfl

/-- Spec-side predicate, following the words of the claim: the module name
contains a `.` after its last path separator (its final segment has a dot). -/
def dotAfterLastSep (fname : String) : Bool :=
  (fname.toList.reverse.takeWhile (fun c => c != '/')).contains '.'

/-- C6, counterexample: the name `"a.b/c"` has its only `.` before the last
path separator, so the claim demands the three suffix candidates; the code
computes `strrchr(fname, '.')` over the whole name (mrb_require.c:159) and
yields the single no-op candidate instead. -/
theorem c6_counterexample :
    extension_candidates "a.b/c" = [none] ∧ dotAfterLastSep "a.b/c" = false := by
  constructor
  · rfl
  · rfl

/-- The branch at mrb_require.c:159-167 as a closed form over dot
membership. -/
theorem extension_candidates_eq_ite (fname : String) :
    extension_candidates fname =
      if '.' ∈ fname.toList then [none]
      else [some ".rb", some ".mrb", some SO_EXT] := by
  unfold extension_candidates
  cases h : strrchr fname.toList '.' with
  | none =>
    rw [if_neg ((strrchr_eq_none_iff _ _).mp h)]
  | some r =>
    obtain ⟨pre, tl, hcs, -, -⟩ := (strrchr_eq_some_iff _ _ _).mp h
    rw [if_pos (by rw [hcs]; simp)]

/-- C6 as amended: the candidate set is the single no-op candidate exactly
when the module name contains a `.` anywhere (also when the only `.` lies in
a directory segment), and otherwise it is the three suffixes source,
bytecode, native in that fixed order. -/
theorem c6_extension_candidates (fname : String) :
    (extension_candidates fname = [none] ↔ fname.toList.contains '.' = true) ∧
    (fname.toList.contains '.' = false →
      extension_candidates fname = [some ".rb", some ".mrb", some SO_EXT]) := by
  have he := extension_candidates_eq_ite fname
  have hc : fname.toList.contains '.' = true ↔ '.' ∈ fname.toList := by
    simp [List.contains]
  by_cases hm : '.' ∈ fname.toList
  · rw [he, if_pos hm]
    refine ⟨⟨fun _ => hc.mpr hm, fun _ => rfl⟩, fun hfalse => ?_⟩
    exact absurd (hc.mpr hm) (by rw [hfalse]; simp)
  · rw [he, if_neg hm]
    exact ⟨⟨fun habs => absurd habs (by decide),
            fun htrue => absurd (hc.mp htrue) hm⟩, fun _ => rfl⟩

theorem c6_extension_candidates_witness :
    extension_candidates "a.b/c" = [none] ∧
    extension_candidates "foo" = [some ".rb", some ".mrb", some SO_EXT] := by
  constructor
  · exact (c6_extension_candidates "a.b/c").1.mpr (by decide)
  · exact (c6_extension_candidates "foo").2 (by decide)

/-- Spec-side join, following the words of the claim: search-path entries
glued with the platform delimiter (the claimed inverse of the split). -/
def specJoinPath : List (List Char) → List Char
  | [] => []
  | [s] => s
  | s :: ss => s ++ ENV_SEP :: specJoinPath ss

theorem envSegsAux_cons (cur : List Char) (c : Char) (cs : List Char) :
    envSegsAux cur (c :: cs) =
      if c = ENV_SEP then
        cur :: (match cs with | [] => [] | _ :: _ => envSegsAux [] cs)
      else
        envSegsAux (cur ++ [c]) cs := rfl

theorem envSegsAux_append_nosep (cur seg rest : List Char) (h : ENV_SEP ∉ seg) :
    envSegsAux cur (seg ++ rest) = envSegsAux (cur ++ seg) rest := by
  induction seg generalizing cur with
  | nil => simp
  | cons c s ih =>
    have hc : ¬(c = ENV_SEP) := fun hce => h (by rw [hce]; exact List.mem_cons_self _ _)
    have hs : ENV_SEP ∉ s := fun hm => h (List.mem_cons_of_mem _ hm)
    show envSegsAux cur (c :: (s ++ rest)) = _
    rw [envSegsAux_cons, if_neg hc, ih (cur ++ [c]) hs]
    simp

theorem specJoinPath_ne_nil (s : List Char) (ss : List (List Char)) (h : s ≠ []) :
    specJoinPath (s :: ss) ≠ [] := by
  cases ss with
  | nil => simpa [specJoinPath] using h
  | cons s2 ss2 => simp [specJoinPath]

theorem envSegs_specJoinPath :
    ∀ ss : List (List Char), (∀ s ∈ ss, s ≠ [] ∧ ENV_SEP ∉ s) →
      envSegs (specJoinPath ss) = ss := by
  intro ss
  induction ss with
  | nil => intro _; rfl
  | cons s ss ih =>
    intro h
    have hs_ne : s ≠ [] := (h s (List.mem_cons_self _ _)).1
    have hs_sep : ENV_SEP ∉ s := (h s (List.mem_cons_self _ _)).2
    obtain ⟨c, sr, rfl⟩ : ∃ c sr, s = c :: sr := by
      cases s with
      | nil => exact absurd rfl hs_ne
      | cons c sr => exact ⟨c, sr, rfl⟩
    cases ss with
    | nil =>
      have h1 : envSegsAux [] ((c :: sr) ++ ([] : List Char)) =
          envSegsAux ([] ++ (c :: sr)) [] :=
        envSegsAux_append_nosep [] (c :: sr) [] hs_sep
      simpa [envSegsAux] using h1
    | cons s2 ss2 =>
      have ht_ne : specJoinPath (s2 :: ss2) ≠ [] :=
        specJoinPath_ne_nil s2 ss2 (h s2 (by simp)).1
      have h1 : envSegsAux [] ((c :: sr) ++ (ENV_SEP :: specJoinPath (s2 :: ss2))) =
          envSegsAux ([] ++ (c :: sr)) (ENV_SEP :: specJoinPath (s2 :: ss2)) :=
        envSegsAux_append_nosep [] (c :: sr) (ENV_SEP :: specJoinPath (s2 :: ss2)) hs_sep
    -- the joined list is a cons, so envSegs reduces to envSegsAux
      show envSegsAux [] ((c :: sr) ++ (ENV_SEP :: specJoinPath (s2 :: ss2))) = _
      rw [h1]
      simp only [List.nil_append]
      cases ht : specJoinPath (s2 :: ss2) with
      | nil => exact absurd ht ht_ne
      | cons t0 trest =>
        have h2 : envSegsAux (c :: sr) (ENV_SEP :: t0 :: trest) =
            (c :: sr) :: envSegsAux [] (t0 :: trest) := by
          rw [envSegsAux_cons, if_pos rfl]
        rw [h2]
        have h3 : envSegsAux [] (t0 :: trest) = s2 :: ss2 := by
          have := ih (fun x hx => h x (List.mem_cons_of_mem _ hx))
          rw [ht] at this
          exact this
        rw [h3]

/-- C9, counterexample: at gem initialization only `$:` and `$"` are set
(mrb_require.c:486-487); the loading registry `$"_` is never assigned and
reads as `nil`, not as an empty set, falsifying the claim that all three
globals are initialized. -/
theorem c9_counterexample :
    (mrb_mruby_require_gem_init (some "/a:/b")).loadingFiles = none ∧
    (none : Option (List String)) ≠ some [] := by
  exact ⟨rfl, by decide⟩

/-- C9 as amended: at initialization `$:` is the environment value split on
the platform delimiter and `$"` is the empty sequence, but `$"_` (the
loading-path set) is left unset (`nil`); it is only created lazily by the
first `loading_files_add`. -/
theorem c9_gem_init (ss : List (List Char))
    (h : ∀ s ∈ ss, s ≠ [] ∧ ENV_SEP ∉ s) :
    mrb_mruby_require_gem_init (some ⟨specJoinPath ss⟩) =
      { loadPath := ss.map (fun cs => (⟨cs⟩ : String))
        loadedFiles := []
        loadingFiles := none } ∧
    mrb_mruby_require_gem_init none =
      { loadPath := [], loadedFiles := [], loadingFiles := none } := by
  constructor
  · have hsegs := envSegs_specJoinPath ss h
    show ({ loadPath := (envSegs (specJoinPath ss)).map (fun cs => (⟨cs⟩ : String))
            loadedFiles := []
            loadingFiles := none } : St) = _
    rw [hsegs]
  · rfl

theorem c9_gem_init_witness :
    mrb_mruby_require_gem_init (some "/a:/b") =
      { loadPath := ["/a", "/b"], loadedFiles := [], loadingFiles := none } := by
  have h := (c9_gem_init [['/', 'a'], ['/', 'b']] (by decide)).1
  exact h

theorem strrchr_eq_dotext_iff (cs ext : List Char) (c : Char) (hc : c ∉ ext) :
    strrchr cs c = some (c :: ext) ↔ ∃ pre, cs = pre ++ c :: ext := by
  rw [strrchr_eq_some_iff]
  constructor
  · rintro ⟨pre, tl, hcs, heq, -⟩
    cases heq
    exact ⟨pre, hcs⟩
  · rintro ⟨pre, hcs⟩
    exact ⟨pre, ext, hcs, rfl, hc⟩

theorem load_file_dispatch_of_none (p : String)
    (h : strrchr p.toList '.' = none) :
    load_file_dispatch p = .errInvalidPath := by
  unfold load_file_dispatch
  rw [h]

theorem load_file_dispatch_of_some (p : String) (ext : List Char)
    (h : strrchr p.toList '.' = some ext) :
    load_file_dispatch p =
      if ext = ".mrb".toList then .run .mrbFile
      else if ext = ".rb".toList then .run .rbFile
      else if ext = SO_EXT.toList then .run .soFile
      else .errInvalidExt := by
  unfold load_file_dispatch
  rw [h]

theorem load_file_dispatch_run_mrb_iff (p : String) :
    load_file_dispatch p = .run .mrbFile ↔ strrchr p.toList '.' = some ".mrb".toList := by
  cases h : strrchr p.toList '.' with
  | none =>
    rw [load_file_dispatch_of_none p h]
    exact ⟨fun hd => (by cases hd), fun hd => (by cases hd)⟩
  | some ext =>
    rw [load_file_dispatch_of_some p ext h, Option.some_inj]
    by_cases h1 : ext = ".mrb".toList
    · rw [if_pos h1]
      exact ⟨fun _ => h1, fun _ => rfl⟩
    · rw [if_neg h1]
      refine ⟨fun hd => ?_, fun he => absurd he h1⟩
      by_cases h2 : ext = ".rb".toList
      · rw [if_pos h2] at hd
        exact absurd hd (by decide)
      · rw [if_neg h2] at hd
        by_cases h3 : ext = SO_EXT.toList
        · rw [if_pos h3] at hd
          exact absurd hd (by decide)
        · rw [if_neg h3] at hd
          exact absurd hd (by decide)

theorem load_file_dispatch_run_rb_iff (p : String) :
    load_file_dispatch p = .run .rbFile ↔ strrchr p.toList '.' = some ".rb".toList := by
  cases h : strrchr p.toList '.' with
  | none =>
    rw [load_file_dispatch_of_none p h]
    exact ⟨fun hd => (by cases hd), fun hd => (by cases hd)⟩
  | some ext =>
    rw [load_file_dispatch_of_some p ext h, Option.some_inj]
    by_cases h1 : ext = ".mrb".toList
    · rw [if_pos h1]
      refine ⟨fun hd => absurd hd (by decide), fun he => ?_⟩
      rw [he] at h1
      exact absurd h1 (by decide)
    · rw [if_neg h1]
      by_cases h2 : ext = ".rb".toList
      · rw [if_pos h2]
        exact ⟨fun _ => h2, fun _ => rfl⟩
      · rw [if_neg h2]
        refine ⟨fun hd => ?_, fun he => absurd he h2⟩
        by_cases h3 : ext = SO_EXT.toList
        · rw [if_pos h3] at hd
          exact absurd hd (by decide)
        · rw [if_neg h3] at hd
          exact absurd hd (by decide)

theorem load_file_dispatch_run_so_iff (p : String) :
    load_file_dispatch p = .run .soFile ↔ strrchr p.toList '.' = some SO_EXT.toList := by
  cases h : strrchr p.toList '.' with
  | none =>
    rw [load_file_dispatch_of_none p h]
    exact ⟨fun hd => (by cases hd), fun hd => (by cases hd)⟩
  | some ext =>
    rw [load_file_dispatch_of_some p ext h, Option.some_inj]
    by_cases h1 : ext = ".mrb".toList
    · rw [if_pos h1]
      refine ⟨fun hd => absurd hd (by decide), fun he => ?_⟩
      rw [he] at h1
      exact absurd h1 (by decide)
    · rw [if_neg h1]
      by_cases h2 : ext = ".rb".toList
      · rw [if_pos h2]
        refine ⟨fun hd => absurd hd (by decide), fun he => ?_⟩
        rw [he] at h2
        exact absurd h2 (by decide)
      · rw [if_neg h2]
        by_cases h3 : ext = SO_EXT.toList
        · rw [if_pos h3]
          exact ⟨fun _ => h3, fun _ => rfl⟩
        · rw [if_neg h3]
          exact ⟨fun hd => absurd hd (by decide), fun he => absurd he h3⟩

theorem load_file_dispatch_invalid_path_iff (p : String) :
    load_file_dispatch p = .errInvalidPath ↔ strrchr p.toList '.' = none := by
  cases h : strrchr p.toList '.' with
  | none =>
    rw [load_file_dispatch_of_none p h]
    exact ⟨fun _ => rfl, fun _ => rfl⟩
  | some ext =>
    rw [load_file_dispatch_of_some p ext h]
    refine ⟨fun hd => ?_, fun hd => by cases hd⟩
    by_cases h1 : ext = ".mrb".toList
    · rw [if_pos h1] at hd
      exact absurd hd (by decide)
    · rw [if_neg h1] at hd
      by_cases h2 : ext = ".rb".toList
      · rw [if_pos h2] at hd
        exact absurd hd (by decide)
      · rw [if_neg h2] at hd
        by_cases h3 : ext = SO_EXT.toList
        · rw [if_pos h3] at hd
          exact absurd hd (by decide)
        · rw [if_neg h3] at hd
          exact absurd hd (by decide)

/-- C7: the dispatcher routes exclusively on the substring from the last `.`:
a path ending in the bytecode suffix runs the bytecode loader, the source
suffix the source loader, the native suffix the native loader; a path with no
`.` raises the "invalid filepath" `LoadError` and any other extension the
"invalid extension" `LoadError`, and in both failure cases `load_file` raises
with no loader run (no load events). -/
theorem c7_load_file_dispatch (p : String) :
    (load_file_dispatch p = .run .mrbFile ↔ ∃ pre, p.toList = pre ++ ".mrb".toList) ∧
    (load_file_dispatch p = .run .rbFile ↔ ∃ pre, p.toList = pre ++ ".rb".toList) ∧
    (load_file_dispatch p = .run .soFile ↔ ∃ pre, p.toList = pre ++ SO_EXT.toList) ∧
    (load_file_dispatch p = .errInvalidPath ↔ p.toList.contains '.' = false) ∧
    (load_file_dispatch p = .errInvalidExt ↔
      p.toList.contains '.' = true ∧
      (∀ pre, p.toList ≠ pre ++ ".mrb".toList) ∧
      (∀ pre, p.toList ≠ pre ++ ".rb".toList) ∧
      (∀ pre, p.toList ≠ pre ++ SO_EXT.toList)) ∧
    (∀ w : World,
      load_file_dispatch p = .errInvalidPath ∨ load_file_dispatch p = .errInvalidExt →
      ∃ m, load_file w p = (.raise (.loadError m), [])) := by
  have hmrb : load_file_dispatch p = .run .mrbFile ↔ ∃ pre, p.toList = pre ++ ".mrb".toList := by
    rw [load_file_dispatch_run_mrb_iff]
    exact strrchr_eq_dotext_iff p.toList "mrb".toList '.' (by decide)
  have hrb : load_file_dispatch p = .run .rbFile ↔ ∃ pre, p.toList = pre ++ ".rb".toList := by
    rw [load_file_dispatch_run_rb_iff]
    exact strrchr_eq_dotext_iff p.toList "rb".toList '.' (by decide)
  have hso : load_file_dispatch p = .run .soFile ↔ ∃ pre, p.toList = pre ++ SO_EXT.toList := by
    rw [load_file_dispatch_run_so_iff]
    exact strrchr_eq_dotext_iff p.toList "so".toList '.' (by decide)
  have hcontains : p.toList.contains '.' = false ↔ '.' ∉ p.toList := by
    simp [List.contains]
  have hpath : load_file_dispatch p = .errInvalidPath ↔ p.toList.contains '.' = false := by
    rw [load_file_dispatch_invalid_path_iff, strrchr_eq_none_iff]
    exact hcontains.symm
  refine ⟨hmrb, hrb, hso, hpath, ?_, ?_⟩
  · constructor
    · intro hext
      have hnotpath : ¬(load_file_dispatch p = .errInvalidPath) := by
        rw [hext]; decide
      have hcon : p.toList.contains '.' = true := by
        cases hcon : p.toList.contains '.' with
        | false => exact absurd (hpath.mpr hcon) hnotpath
        | true => rfl
      refine ⟨hcon, ?_, ?_, ?_⟩
      · intro pre hdec
        have := hmrb.mpr ⟨pre, hdec⟩
        rw [hext] at this
        cases this
      · intro pre hdec
        have := hrb.mpr ⟨pre, hdec⟩
        rw [hext] at this
        cases this
      · intro pre hdec
        have := hso.mpr ⟨pre, hdec⟩
        rw [hext] at this
        cases this
    · rintro ⟨hcon, hnm, hnr, hns⟩
      cases hd : load_file_dispatch p with
      | errInvalidExt => rfl
      | errInvalidPath =>
        rw [hpath] at hd
        rw [hd] at hcon
        cases hcon
      | run k =>
        cases k with
        | mrbFile =>
          obtain ⟨pre, hdec⟩ := hmrb.mp hd
          exact absurd hdec (hnm pre)
        | rbFile =>
          obtain ⟨pre, hdec⟩ := hrb.mp hd
          exact absurd hdec (hnr pre)
        | soFile =>
          obtain ⟨pre, hdec⟩ := hso.mp hd
          exact absurd hdec (hns pre)
  · intro w hd
    cases hd with
    | inl hd => exact ⟨_, by rw [load_file, hd]⟩
    | inr hd => exact ⟨_, by rw [load_file, hd]⟩

theorem c7_load_file_dispatch_witness :
    load_file_dispatch "a.rb" = .run .rbFile :=
  (c7_load_file_dispatch "a.rb").2.1.mpr ⟨"a".toList, by decide⟩

/-- The flattened candidate sequence of the bare-name search: for each
directory in load-path order, the three built paths with the source,
bytecode, native suffixes in that fixed order. -/
def candidatePaths (lp : List String) (fname : String) : List String :=
  lp.flatMap (fun d => [".rb", ".mrb", SO_EXT].map (fun e => d ++ "/" ++ fname ++ e))

/-- One probe of the search: canonicalise the built path and test it opens,
as `find_file_check` does. -/
def probe (opens : String → Bool) (rp : String → String) (c : String) : Option String :=
  if opens (rp c) then some (rp c) else none

theorem search_exts_block (opens : String → Bool) (rp : String → String)
    (d fname : String) :
    search_exts opens rp d fname [some ".rb", some ".mrb", some SO_EXT] =
      (([".rb", ".mrb", SO_EXT]).map (fun e => d ++ "/" ++ fname ++ e)).findSome?
        (probe opens rp) := by
  cases h0 : opens (rp (d ++ "/" ++ fname ++ ".rb")) with
  | true => simp [search_exts, find_file_check, probe, List.findSome?_cons, h0]
  | false =>
    cases h1 : opens (rp (d ++ "/" ++ fname ++ ".mrb")) with
    | true => simp [search_exts, find_file_check, probe, List.findSome?_cons, h0, h1]
    | false =>
      cases h2 : opens (rp (d ++ "/" ++ fname ++ SO_EXT)) with
      | true => simp [search_exts, find_file_check, probe, List.findSome?_cons, h0, h1, h2]
      | false => simp [search_exts, find_file_check, probe, List.findSome?_cons, h0, h1, h2]

theorem search_dirs_flat (opens : String → Bool) (rp : String → String)
    (fname : String) (lp : List String) :
    search_dirs opens rp fname [some ".rb", some ".mrb", some SO_EXT] lp =
      (candidatePaths lp fname).findSome? (probe opens rp) := by
  induction lp with
  | nil => rfl
  | cons d ds ih =>
    have hc : candidatePaths (d :: ds) fname =
        (([".rb", ".mrb", SO_EXT]).map (fun e => d ++ "/" ++ fname ++ e)) ++
          candidatePaths ds fname := by
      simp [candidatePaths]
    rw [hc, List.findSome?_append, ← ih, ← search_exts_block]
    cases hse : search_exts opens rp d fname [some ".rb", some ".mrb", some SO_EXT] with
    | some fp => simp [search_dirs, hse]
    | none => simp [search_dirs, hse]

theorem findSome_probe_first (opens : String → Bool) (rp : String → String) :
    ∀ (cs : List String) (k : Nat) (hk : k < cs.length),
      opens (rp (cs.get ⟨k, hk⟩)) = true →
      (∀ j (hj : j < k), opens (rp (cs.get ⟨j, Nat.lt_trans hj hk⟩)) = false) →
      cs.findSome? (probe opens rp) = some (rp (cs.get ⟨k, hk⟩)) := by
  intro cs
  induction cs with
  | nil => intro k hk; cases hk
  | cons c cs ih =>
    intro k hk hopen hbefore
    cases k with
    | zero =>
      simp only [List.get] at hopen ⊢
      simp [List.findSome?_cons, probe, hopen]
    | succ k =>
      have h0 : opens (rp c) = false := by
        have := hbefore 0 (Nat.succ_pos k)
        simpa [List.get] using this
      have hopen2 : opens (rp (cs.get ⟨k, Nat.lt_of_succ_lt_succ hk⟩)) = true := by
        simpa [List.get] using hopen
      have hbefore2 : ∀ j (hj : j < k),
          opens (rp (cs.get ⟨j, Nat.lt_trans hj (Nat.lt_of_succ_lt_succ hk)⟩)) = false := by
        intro j hj
        have := hbefore (j + 1) (Nat.succ_lt_succ hj)
        simpa [List.get] using this
      have := ih k (Nat.lt_of_succ_lt_succ hk) hopen2 hbefore2
      simp only [List.findSome?_cons, probe, h0]
      simpa [List.get, probe] using this

theorem find_file_bare (opens : String → Bool) (rp : String → String)
    (lp : List String) (fname : String)
    (hdot : '.' ∉ fname.toList) (habs : startsWithChar '/' fname = false)
    (hrel : startsWithChar '.' fname = false) :
    find_file opens rp lp fname =
      match (candidatePaths lp fname).findSome? (probe opens rp) with
      | some fp => .found fp
      | none => .loadError ("cannot load such file -- " ++ fname) := by
  unfold find_file
  rw [extension_candidates_eq_ite, if_neg hdot, habs, hrel]
  simp only [Bool.false_eq_true, if_false]
  rw [search_dirs_flat]

/-- C2: for a bare module name with no dot and no leading `/` or `.`, the
search walks the load-path directories in order and, within each directory,
the suffixes `.rb`, `.mrb`, `SO_EXT` in that fixed order (the flattened
sequence `candidatePaths`); the first candidate whose canonicalised built
path opens for read is returned, and if none opens the search raises the
"cannot load such file" `LoadError` naming the original module name. -/
theorem c2_find_file_search_order (opens : String → Bool) (rp : String → String)
    (lp : List String) (fname : String)
    (hdot : fname.toList.contains '.' = false)
    (habs : startsWithChar '/' fname = false)
    (hrel : startsWithChar '.' fname = false) :
    (∀ k (hk : k < (candidatePaths lp fname).length),
      opens (rp ((candidatePaths lp fname).get ⟨k, hk⟩)) = true →
      (∀ j (hj : j < k),
        opens (rp ((candidatePaths lp fname).get ⟨j, Nat.lt_trans hj hk⟩)) = false) →
      find_file opens rp lp fname =
        .found (rp ((candidatePaths lp fname).get ⟨k, hk⟩))) ∧
    ((∀ c ∈ candidatePaths lp fname, opens (rp c) = false) →
      find_file opens rp lp fname =
        .loadError ("cannot load such file -- " ++ fname)) := by
  have hdot2 : '.' ∉ fname.toList := by
    intro hm
    have hc : fname.toList.contains '.' = true ↔ '.' ∈ fname.toList := by
      simp [List.contains]
    rw [hc.mpr hm] at hdot
    exact Bool.noConfusion hdot
  have hff := find_file_bare opens rp lp fname hdot2 habs hrel
  constructor
  · intro k hk hopen hbefore
    rw [hff, findSome_probe_first opens rp (candidatePaths lp fname) k hk hopen hbefore]
  · intro hall
    have : (candidatePaths lp fname).findSome? (probe opens rp) = none := by
      rw [List.findSome?_eq_none_iff]
      intro c hc
      simp [probe, hall c hc]
    rw [hff, this]

theorem c2_find_file_search_order_witness :
    find_file (fun s => s == "b/m.mrb") id ["a", "b"] "m" =
      .found "b/m.mrb" := by
  have h := (c2_find_file_search_order (fun s => s == "b/m.mrb") id ["a", "b"] "m"
    rfl rfl rfl).1 4 (by decide) (by decide) (by decide)
  exact h

/-- C1: when the resolved path is already in the loaded or loading registry,
`require` returns false with no loader run and no state change; otherwise it
marks loading, dispatches, marks loaded and returns true, and a second
`require` resolving to the same path returns false, so the top-level code of
the file runs exactly once across the two calls. -/
theorem c1_require_once (w : World) (st : St) (fname p : String)
    (hf : find_file w.opens w.rp st.loadPath fname = .found p) :
    (loaded_files_check st p = false →
      mrb_require w st fname = (.ret false, st, [])) ∧
    (loaded_files_check st p = true → (load_file w p).1 = .ok →
      mrb_require w st fname =
        (.ret true, loaded_files_add (loading_files_add st p) p, (load_file w p).2) ∧
      mrb_require w (loaded_files_add (loading_files_add st p) p) fname =
        (.ret false, loaded_files_add (loading_files_add st p) p, []) ∧
      ((load_file w p).2.count (Ev.executed p) = 1 →
        ((mrb_require w st fname).2.2 ++
          (mrb_require w (loaded_files_add (loading_files_add st p) p) fname).2.2).count
            (Ev.executed p) = 1)) := by
  constructor
  · intro hchk
    unfold mrb_require
    rw [hf]
    simp [hchk]
  · intro hchk hok
    rcases hload : load_file w p with ⟨r, tr⟩
    rw [hload] at hok
    simp only at hok
    subst hok
    have hfirst : mrb_require w st fname =
        (.ret true, loaded_files_add (loading_files_add st p) p, tr) := by
      unfold mrb_require
      rw [hf]
      simp [hchk, hload]
    have hlp : (loaded_files_add (loading_files_add st p) p).loadPath = st.loadPath := rfl
    have hmem : (st.loadedFiles ++ [p]).contains p = true := by simp
    have hchk2 : loaded_files_check (loaded_files_add (loading_files_add st p) p) p = false := by
      unfold loaded_files_check
      simp [loaded_files_add, loading_files_add, hmem]
    have hsecond : mrb_require w (loaded_files_add (loading_files_add st p) p) fname =
        (.ret false, loaded_files_add (loading_files_add st p) p, []) := by
      unfold mrb_require
      rw [hlp, hf]
      simp [hchk2]
    refine ⟨by rw [hfirst], hsecond, ?_⟩
    intro hcount
    have hcount2 : tr.count (Ev.executed p) = 1 := hcount
    rw [hfirst, hsecond]
    simpa using hcount2

theorem c1_require_once_witness :
    mrb_require
      { opens := fun s => s == "lib/foo.rb", rp := id, pid := 42,
        compileOk := fun _ => true, validBytecode := fun _ => true,
        execOk := fun _ => true, dlopenOk := fun _ => true, dlsymOk := fun _ => true }
      { loadPath := ["lib"], loadedFiles := [], loadingFiles := none } "foo" =
      (.ret true,
       { loadPath := ["lib"], loadedFiles := ["lib/foo.rb"],
         loadingFiles := some ["lib/foo.rb"] },
       [Ev.tmpCreated "/tmp/mruby.42", Ev.executed "lib/foo.rb",
        Ev.tmpRemoved "/tmp/mruby.42"]) := by
  have h := ((c1_require_once
    { opens := fun s => s == "lib/foo.rb", rp := id, pid := 42,
      compileOk := fun _ => true, validBytecode := fun _ => true,
      execOk := fun _ => true, dlopenOk := fun _ => true, dlsymOk := fun _ => true }
    { loadPath := ["lib"], loadedFiles := [], loadingFiles := none }
    "foo" "lib/foo.rb" rfl).2 rfl rfl).1
  exact h

/-- C10: when a `require` dispatch raises after the path entered the loading
registry, the exception unwinds past `loaded_files_add`, the path stays in
the loading registry (the subsystem has no removal operation: the registry
only ever grows), and every subsequent `require` resolving to the same path
returns false without running any loader — a module whose first load failed
is never retried. -/
theorem c10_failed_load_not_retried (w : World) (st : St) (fname p : String) (e : RubyExc)
    (hf : find_file w.opens w.rp st.loadPath fname = .found p)
    (hchk : loaded_files_check st p = true)
    (hfail : (load_file w p).1 = .raise e) :
    mrb_require w st fname = (.raise e, loading_files_add st p, (load_file w p).2) ∧
    ((loading_files_add st p).loadingFiles.getD []).contains p = true ∧
    (loading_files_add st p).loadedFiles = st.loadedFiles ∧
    mrb_require w (loading_files_add st p) fname =
      (.ret false, loading_files_add st p, []) ∧
    (∀ w2 st2 f2, ∃ tail,
      (mrb_require w2 st2 f2).2.1.loadingFiles.getD [] =
        st2.loadingFiles.getD [] ++ tail) := by
  rcases hload : load_file w p with ⟨r, tr⟩
  rw [hload] at hfail
  simp only at hfail
  subst hfail
  have hfirst : mrb_require w st fname = (.raise e, loading_files_add st p, tr) := by
    unfold mrb_require
    rw [hf]
    simp [hchk, hload]
  have hchk2 : loaded_files_check (loading_files_add st p) p = false := by
    unfold loaded_files_check
    cases hcon : st.loadedFiles.contains p with
    | true => simp [loading_files_add, hcon]
    | false => simp [loading_files_add, hcon]
  have hsecond : mrb_require w (loading_files_add st p) fname =
      (.ret false, loading_files_add st p, []) := by
    unfold mrb_require
    have hlp : (loading_files_add st p).loadPath = st.loadPath := rfl
    rw [hlp, hf]
    simp [hchk2]
  refine ⟨by rw [hfirst], by simp [loading_files_add], rfl, hsecond, ?_⟩
  intro w2 st2 f2
  unfold mrb_require
  cases hf2 : find_file w2.opens w2.rp st2.loadPath f2 with
  | loadError m => exact ⟨[], by simp⟩
  | nilResult => exact ⟨[], by simp⟩
  | found q =>
    cases hchk3 : loaded_files_check st2 q with
    | false => exact ⟨[], by simp [hchk3]⟩
    | true =>
      rcases hload2 : load_file w2 q with ⟨r2, tr2⟩
      cases r2 with
      | ok =>
        exact ⟨[q], by simp [hchk3, hload2, loaded_files_add, loading_files_add]⟩
      | raise e2 =>
        exact ⟨[q], by simp [hchk3, hload2, loading_files_add]⟩

theorem c10_failed_load_not_retried_witness :
    mrb_require
      { opens := fun s => s == "lib/foo.mrb", rp := id, pid := 3,
        compileOk := fun _ => true, validBytecode := fun _ => true,
        execOk := fun _ => false, dlopenOk := fun _ => true, dlsymOk := fun _ => true }
      { loadPath := ["lib"], loadedFiles := [],
        loadingFiles := some ["lib/foo.mrb"] } "foo" =
      (.ret false,
       { loadPath := ["lib"], loadedFiles := [],
         loadingFiles := some ["lib/foo.mrb"] }, []) := by
  have h := (c10_failed_load_not_retried
    { opens := fun s => s == "lib/foo.mrb", rp := id, pid := 3,
      compileOk := fun _ => true, validBytecode := fun _ => true,
      execOk := fun _ => false, dlopenOk := fun _ => true, dlsymOk := fun _ => true }
    { loadPath := ["lib"], loadedFiles := [], loadingFiles := none }
    "foo" "lib/foo.mrb" RubyExc.scriptError rfl rfl rfl).2.2.2.1
  exact h

/-- The bytecode load step never records temp-file events of its own: its
trace is empty or the single execution event. -/
theorem load_mrb_no_tmp_events (w : World) (fo cv : Bool) (fpath orig t : String) :
    ((load_mrb_file_with_filepath w fo cv fpath orig).2).contains (Ev.tmpRemoved t)
      = false := by
  unfold load_mrb_file_with_filepath
  cases fo with
  | false => simp
  | true =>
    cases cv with
    | false => simp
    | true =>
      cases hex : w.execOk orig with
      | true => simp [hex]
      | false => simp [hex]

/-- World used for the C3 counterexample: the source file compiles, but
executing the loaded unit raises. -/
def wC3fail : World :=
  { opens := fun s => s == "m.rb", rp := id, pid := 7,
    compileOk := fun _ => true, validBytecode := fun _ => true,
    execOk := fun _ => false, dlopenOk := fun _ => true, dlsymOk := fun _ => true }

/-- World used for the C3 witness: same as `wC3fail` but execution
succeeds. -/
def wC3ok : World :=
  { opens := fun s => s == "m.rb", rp := id, pid := 7,
    compileOk := fun _ => true, validBytecode := fun _ => true,
    execOk := fun _ => true, dlopenOk := fun _ => true, dlsymOk := fun _ => true }

/-- C3, counterexample: when execution of the loaded code raises, the
`longjmp` unwinds out of `load_rb_file` before `remove(tmpfilepath)`
(mrb_require.c:344), so the temp file is created but never deleted —
falsifying the claim that it is deleted in every case. -/
theorem c3_counterexample :
    (load_rb_file wC3fail "m.rb").1 = .raise .scriptError ∧
    (load_rb_file wC3fail "m.rb").2.contains
      (Ev.tmpRemoved (tmpfilepath wC3fail)) = false ∧
    (load_rb_file wC3fail "m.rb").2.contains
      (Ev.tmpCreated (tmpfilepath wC3fail)) = true := by
  refine ⟨rfl, ?_, ?_⟩ <;> decide

/-- C3 as amended: the temp file is always created, and it is deleted exactly
when the bytecode load step returns normally (successful execution, or the
silent negative-return deserialization failure); when that step raises, the
non-local exit skips the deletion. -/
theorem c3_tmpfile_cleanup (w : World) (p : String) (hop : w.opens p = true) :
    ((load_rb_file w p).2.contains (Ev.tmpRemoved (tmpfilepath w)) = true ↔
      (load_mrb_file_with_filepath w true (w.compileOk p) (tmpfilepath w) p).1 = .ok) ∧
    (load_rb_file w p).2.contains (Ev.tmpCreated (tmpfilepath w)) = true := by
  unfold load_rb_file
  rw [hop]
  simp only [Bool.not_true, Bool.false_eq_true, if_false]
  rcases hm : load_mrb_file_with_filepath w true ((mrb_compile w p).2) (tmpfilepath w) p
    with ⟨r, tr⟩
  have hm2 : load_mrb_file_with_filepath w true (w.compileOk p) (tmpfilepath w) p
      = (r, tr) := hm
  have htr : tr.contains (Ev.tmpRemoved (tmpfilepath w)) = false := by
    have := load_mrb_no_tmp_events w true (w.compileOk p) (tmpfilepath w) p (tmpfilepath w)
    rw [hm2] at this
    exact this
  cases r with
  | ok =>
    rw [hm2]
    simp
  | raise e =>
    rw [hm2]
    have hmem : Ev.tmpRemoved (tmpfilepath w) ∉ tr := by
      simpa using htr
    simp [hmem]

theorem c3_tmpfile_cleanup_witness :
    (load_rb_file wC3ok "m.rb").2.contains (Ev.tmpRemoved (tmpfilepath wC3ok))
      = true := by
  exact (c3_tmpfile_cleanup wC3ok "m.rb" rfl).1.mpr rfl

/-- World for C4: the module resolves to a source file whose compilation
fails in the sub-instance. -/
def wC4 : World :=
  { opens := fun s => s == "lib/m.rb", rp := id, pid := 9,
    compileOk := fun _ => false, validBytecode := fun _ => true,
    execOk := fun _ => true, dlopenOk := fun _ => true, dlsymOk := fun _ => true }

/-- Initial state for C4. -/
def stC4 : St := { loadPath := ["lib"], loadedFiles := [], loadingFiles := none }

/-- C4: the code contradicts the claim.  `mrb_compile` never relays the
sub-instance compile diagnostic (it closes the sub-instance and returns nil,
mrb_require.c:287-289); the garbage temp file then makes
`mrb_read_irep_file` return a negative count without setting `mrb->exc`, so
`load_mrb_file_with_filepath` returns silently, `require` marks the module
loaded and returns true: a compile failure raises no `LoadError`, executes
nothing, and is silently swallowed. -/
theorem c4_compile_error_swallowed :
    mrb_require wC4 stC4 "m" =
      (.ret true,
       { loadPath := ["lib"], loadedFiles := ["lib/m.rb"],
         loadingFiles := some ["lib/m.rb"] },
       [Ev.tmpCreated "/tmp/mruby.9", Ev.tmpRemoved "/tmp/mruby.9"]) ∧
    (mrb_require wC4 stC4 "m").2.2.contains (Ev.executed "lib/m.rb") = false := by
  refine ⟨rfl, ?_⟩
  decide

end MrbRequire
